import Mathlib

/-!
# Verification of the word-level timing utilities (`src/lib/word-timing.ts`)

Shallow embedding of the word-timing estimator, the active-word locator and
the word normalizer of the LanguageLearn repository.

Modelling conventions:
* JavaScript strings are modelled as `List Char`; JavaScript numbers (IEEE
  doubles) are modelled as exact rationals `ℚ`, so the arithmetic identities
  below are about the algorithm's exact arithmetic.
* `text.split(/\s+/).filter(w => w.length > 0)` returns exactly the maximal
  runs of non-whitespace characters of `text`, in order (the regex split can
  only produce empty strings at the two ends, and the filter drops them);
  `tokenize` below computes those runs directly.
* `segmentIndex` values are natural numbers; `findActiveWord` returns an
  integer because the source's `findIndex` uses `-1` as its sentinel.
-/

namespace WordTiming

/-- Characters matched by the JavaScript regex class `\s` (the common ones:
space, tab, line feed, vertical tab, form feed, carriage return, NBSP). -/
def isWS (c : Char) : Bool :=
  [' ', '\t', '\n', '\x0b', '\x0c', '\r', ' '].contains c

/-- `text.split(/\s+/).filter(w => w.length > 0)`: the maximal runs of
non-whitespace characters of `text`, in order. -/
def tokenize : List Char → List (List Char)
  | [] => []
  | [c] => if isWS c then [] else [[c]]
  | c :: d :: cs =>
    if isWS c then tokenize (d :: cs)
    else if isWS d then [c] :: tokenize cs
    else
      match tokenize (d :: cs) with
      | [] => [[c]]
      | t :: ts => (c :: t) :: ts

/-- `TranscriptSegment` (the fields the timing code reads: `text`, `start`,
`duration`). -/
structure TranscriptSegment where
  text : List Char
  start : ℚ
  duration : ℚ
deriving DecidableEq

/-- `WordTimestamp` output record; the source's `end` field is called
`endTime` because `end` is a Lean keyword. -/
structure WordTimestamp where
  word : List Char
  start : ℚ
  endTime : ℚ
  segmentIndex : ℕ
  wordIndex : ℕ
deriving DecidableEq

/-- The `words.forEach((word, index) => ...)` loop body of
`estimateWordTimings`: `text`, `timePerWord` and `nWords` are fixed outside
the loop, `currentTime` is the running cursor, `index` the running word
index. -/
def estimateLoop (text : List Char) (timePerWord : ℚ) (nWords : ℕ)
    (segmentIndex : ℕ) :
    List (List Char) → ℚ → ℕ → List WordTimestamp
  | [], _, _ => []
  | word :: rest, currentTime, index =>
    let wordLength : ℚ := word.length
    let avgWordLength : ℚ := (text.length : ℚ) / (nWords : ℚ)
    let lengthFactor : ℚ := wordLength / avgWordLength
    let wordDuration : ℚ := timePerWord * lengthFactor
    { word := word
      start := currentTime
      endTime := currentTime + wordDuration
      segmentIndex := segmentIndex
      wordIndex := index } ::
      estimateLoop text timePerWord nWords segmentIndex rest
        (currentTime + wordDuration) (index + 1)

/-- `estimateWordTimings(segment, segmentIndex)`. -/
def estimateWordTimings (segment : TranscriptSegment) (segmentIndex : ℕ) :
    List WordTimestamp :=
  let text := segment.text
  let words := tokenize text
  if words.length = 0 then []
  else
    let timePerWord := segment.duration / (words.length : ℚ)
    estimateLoop text timePerWord words.length segmentIndex words
      segment.start 0

/-- The `transcript.forEach((segment, index) => ...)` loop of
`generateWordTimestamps`, with `n` the index of the first remaining
segment. -/
def generateFrom (n : ℕ) : List TranscriptSegment → List WordTimestamp
  | [] => []
  | segment :: rest =>
    estimateWordTimings segment n ++ generateFrom (n + 1) rest

/-- `generateWordTimestamps(transcript)`. -/
def generateWordTimestamps (transcript : List TranscriptSegment) :
    List WordTimestamp :=
  generateFrom 0 transcript

/-- `Array.prototype.findIndex`: index of the first element satisfying `p`,
`-1` if none. -/
def findIndexFrom (p : WordTimestamp → Bool) : List WordTimestamp → ℤ
  | [] => -1
  | w :: ws =>
    if p w then 0
    else
      let r := findIndexFrom p ws
      if r = -1 then -1 else r + 1

/-- `findActiveWord(words, currentTime)`. -/
def findActiveWord (words : List WordTimestamp) (currentTime : ℚ) : ℤ :=
  findIndexFrom
    (fun word => decide (currentTime ≥ word.start) &&
      decide (currentTime < word.endTime)) words

/-- The character class of `/[♪\[\]().,!?;:'"]/`. -/
def punctuation : List Char :=
  ['♪', '[', ']', '(', ')', '.', ',', '!', '?', ';', ':', '\'', '"']

/-- `.replace(/[♪\[\]().,!?;:'"]/g, '')`. -/
def stripPunctuation (s : List Char) : List Char :=
  s.filter (fun c => !punctuation.contains c)

/-- `.replace(/\s+/g, ' ')`: every maximal whitespace run becomes a single
space. -/
def collapseWhitespace : List Char → List Char
  | [] => []
  | [c] => if isWS c then [' '] else [c]
  | c :: d :: cs =>
    if isWS c then
      if isWS d then collapseWhitespace (d :: cs)
      else ' ' :: collapseWhitespace (d :: cs)
    else c :: collapseWhitespace (d :: cs)

/-- `.trim()`: drop leading and trailing whitespace. -/
def trimChars (s : List Char) : List Char :=
  ((s.dropWhile isWS).reverse.dropWhile isWS).reverse

/-- `.toLowerCase()`, restricted to the ASCII range (the only case mapping
the punctuation-free caption tokens exercise): `A`–`Z` (code points 65–90)
map 32 code points up, everything else is fixed. -/
def jsToLower (c : Char) : Char :=
  if 65 ≤ c.toNat ∧ c.toNat ≤ 90 then Char.ofNat (c.toNat + 32) else c

/-- `cleanWord(word)`. -/
def cleanWord (word : List Char) : List Char :=
  (trimChars (collapseWhitespace (stripPunctuation word))).map jsToLower

/-! ### Abbreviations used by the lemmas below (they name subterms of the
definitions above) -/

/-- The exact duration `estimateLoop` assigns to the token `w`:
`timePerWord * (wordLength / avgWordLength)`. -/
def wordDur (text : List Char) (tpw : ℚ) (n : ℕ) (w : List Char) : ℚ :=
  tpw * ((w.length : ℚ) / ((text.length : ℚ) / (n : ℚ)))

/-- Total duration assigned to the first `j` tokens of `ws`. -/
def prefDur (text : List Char) (tpw : ℚ) (n : ℕ) (ws : List (List Char))
    (j : ℕ) : ℚ :=
  ((ws.take j).map (wordDur text tpw n)).sum

/-- Shorthand for the `timePerWord` value of a segment. -/
def timePerWord (segment : TranscriptSegment) : ℚ :=
  segment.duration / ((tokenize segment.text).length : ℚ)

end WordTiming

namespace WordTiming

/-! ### Tokenizer lemmas -/

theorem tokenize_nil : tokenize [] = [] := rfl

theorem tokenize_cons_ws {c d : Char} {cs : List Char} (h : isWS c = true) :
    tokenize (c :: d :: cs) = tokenize (d :: cs) := by
  simp only [tokenize, h, if_true]

theorem tokenize_cons_break {c d : Char} {cs : List Char}
    (h : ¬isWS c = true) (hd : isWS d = true) :
    tokenize (c :: d :: cs) = [c] :: tokenize cs := by
  simp [tokenize, h, hd]

theorem tokenize_cons_run {c d : Char} {cs : List Char}
    (h : ¬isWS c = true) (hd : ¬isWS d = true) :
    tokenize (c :: d :: cs) =
      match tokenize (d :: cs) with
      | [] => [[c]]
      | t :: ts => (c :: t) :: ts := by
  simp [tokenize, h, hd]

/-- Every token produced by the split is non-empty (the `filter` in the
source drops the empty strings). -/
theorem ne_nil_of_mem_tokenize :
    ∀ (s : List Char), ∀ t ∈ tokenize s, t ≠ [] := by
  intro s
  induction s using tokenize.induct with
  | case1 => intro t ht; simp [tokenize] at ht
  | case2 c h => intro t ht; simp [tokenize, h] at ht
  | case3 c h =>
    intro t ht; simp [tokenize, h] at ht; simp [ht]
  | case4 c d cs h ih =>
    intro t ht
    rw [tokenize_cons_ws h] at ht
    exact ih t ht
  | case5 c d cs h hd ih =>
    intro t ht
    rw [tokenize_cons_break h hd] at ht
    rcases List.mem_cons.mp ht with h1 | h1
    · simp [h1]
    · exact ih t h1
  | case6 c d cs h hd hm _ =>
    intro t ht
    rw [tokenize_cons_run h hd, hm] at ht
    simp at ht; simp [ht]
  | case7 c d cs h hd t' ts' hm ih =>
    intro t ht
    rw [tokenize_cons_run h hd, hm] at ht
    rcases List.mem_cons.mp ht with h1 | h1
    · simp [h1]
    · exact ih t (hm ▸ List.mem_cons_of_mem t' h1)

/-- The tokens' total length is at most the original text's length (the
split consumes at least the whitespace between tokens). -/
theorem tokenize_sum_length_le :
    ∀ (s : List Char), ((tokenize s).map List.length).sum ≤ s.length := by
  intro s
  induction s using tokenize.induct with
  | case1 => simp [tokenize]
  | case2 c h => simp [tokenize, h]
  | case3 c h => simp [tokenize, h]
  | case4 c d cs h ih =>
    rw [tokenize_cons_ws h]
    simpa using Nat.le_succ_of_le ih
  | case5 c d cs h hd ih =>
    rw [tokenize_cons_break h hd]
    simp only [List.map_cons, List.sum_cons, List.length_cons,
      List.length_singleton, List.length_nil]
    omega
  | case6 c d cs h hd hm _ =>
    rw [tokenize_cons_run h hd, hm]
    simp
  | case7 c d cs h hd t' ts' hm ih =>
    rw [tokenize_cons_run h hd, hm]
    rw [hm] at ih
    simp only [List.map_cons, List.sum_cons, List.length_cons] at *
    omega

/-- A text with at least one token is non-empty. -/
theorem text_length_pos_of_tokenize_ne_nil {s : List Char}
    (h : tokenize s ≠ []) : 0 < s.length := by
  cases s with
  | nil => exact absurd tokenize_nil h
  | cons c cs => simp

end WordTiming

namespace WordTiming

/-! ### Estimator lemmas -/

theorem estimateLoop_cons (text : List Char) (tpw : ℚ) (n k : ℕ)
    (w : List Char) (ws : List (List Char)) (c : ℚ) (i : ℕ) :
    estimateLoop text tpw n k (w :: ws) c i =
      { word := w
        start := c
        endTime := c + wordDur text tpw n w
        segmentIndex := k
        wordIndex := i } ::
        estimateLoop text tpw n k ws (c + wordDur text tpw n w) (i + 1) :=
  rfl

theorem estimateLoop_length (text : List Char) (tpw : ℚ) (n k : ℕ) :
    ∀ (ws : List (List Char)) (c : ℚ) (i : ℕ),
    (estimateLoop text tpw n k ws c i).length = ws.length := by
  intro ws
  induction ws with
  | nil => intro c i; rfl
  | cons w ws ih =>
    intro c i
    rw [estimateLoop_cons]
    simp [ih]

theorem prefDur_zero (text : List Char) (tpw : ℚ) (n : ℕ)
    (ws : List (List Char)) : prefDur text tpw n ws 0 = 0 := rfl

theorem prefDur_cons_succ (text : List Char) (tpw : ℚ) (n : ℕ)
    (w : List Char) (ws : List (List Char)) (j : ℕ) :
    prefDur text tpw n (w :: ws) (j + 1) =
      wordDur text tpw n w + prefDur text tpw n ws j := by
  simp [prefDur, List.take_succ_cons]

/-- Closed form of the loop: the `j`-th emitted record. -/
theorem estimateLoop_getElem? (text : List Char) (tpw : ℚ) (n k : ℕ) :
    ∀ (ws : List (List Char)) (c : ℚ) (i j : ℕ),
    (estimateLoop text tpw n k ws c i)[j]? =
      ws[j]?.map (fun w =>
        { word := w
          start := c + prefDur text tpw n ws j
          endTime := c + prefDur text tpw n ws (j + 1)
          segmentIndex := k
          wordIndex := i + j }) := by
  intro ws
  induction ws with
  | nil => intro c i j; simp [estimateLoop]
  | cons w ws ih =>
    intro c i j
    rw [estimateLoop_cons]
    cases j with
    | zero =>
      simp [prefDur_zero, prefDur_cons_succ, prefDur]
    | succ j =>
      rw [List.getElem?_cons_succ, List.getElem?_cons_succ, ih]
      cases hj : ws[j]? with
      | none => simp
      | some w' =>
        have h3 : i + 1 + j = i + (j + 1) := by omega
        simp [prefDur_cons_succ, add_assoc, h3]

end WordTiming

namespace WordTiming

theorem estimateWordTimings_of_tokenize_nil (segment : TranscriptSegment)
    (k : ℕ) (h : tokenize segment.text = []) :
    estimateWordTimings segment k = [] := by
  simp [estimateWordTimings, h]

theorem estimateWordTimings_eq_loop (segment : TranscriptSegment) (k : ℕ)
    (h : tokenize segment.text ≠ []) :
    estimateWordTimings segment k =
      estimateLoop segment.text (timePerWord segment)
        (tokenize segment.text).length k (tokenize segment.text)
        segment.start 0 := by
  rw [estimateWordTimings]
  simp only [timePerWord]
  rw [if_neg (by simpa using h)]

theorem estimateWordTimings_length (segment : TranscriptSegment) (k : ℕ) :
    (estimateWordTimings segment k).length = (tokenize segment.text).length := by
  by_cases h : tokenize segment.text = []
  · rw [estimateWordTimings_of_tokenize_nil segment k h, h]
    rfl
  · rw [estimateWordTimings_eq_loop segment k h, estimateLoop_length]

/-- Closed form of the estimator: the `j`-th record of a segment. -/
theorem estimateWordTimings_getElem? (segment : TranscriptSegment) (k j : ℕ) :
    (estimateWordTimings segment k)[j]? =
      (tokenize segment.text)[j]?.map (fun w =>
        { word := w
          start := segment.start +
            prefDur segment.text (timePerWord segment)
              (tokenize segment.text).length (tokenize segment.text) j
          endTime := segment.start +
            prefDur segment.text (timePerWord segment)
              (tokenize segment.text).length (tokenize segment.text) (j + 1)
          segmentIndex := k
          wordIndex := j }) := by
  by_cases h : tokenize segment.text = []
  · rw [estimateWordTimings_of_tokenize_nil segment k h, h]
    simp
  · rw [estimateWordTimings_eq_loop segment k h, estimateLoop_getElem?]
    simp

/-- With the estimator's own parameters, the duration assigned to token `w`
simplifies to `duration * tokenLength / textLength`. -/
theorem wordDur_est (segment : TranscriptSegment) (w : List Char)
    (h : tokenize segment.text ≠ []) :
    wordDur segment.text (timePerWord segment)
      (tokenize segment.text).length w =
      segment.duration * (w.length : ℚ) / (segment.text.length : ℚ) := by
  have hN : ((tokenize segment.text).length : ℚ) ≠ 0 :=
    Nat.cast_ne_zero.mpr (Nat.pos_iff_ne_zero.mp (List.length_pos.mpr h))
  have hL : ((segment.text.length : ℚ)) ≠ 0 := by
    have := text_length_pos_of_tokenize_ne_nil h
    positivity
  rw [wordDur, timePerWord]
  field_simp
  ring

theorem wordDur_nonneg (text : List Char) (tpw : ℚ) (n : ℕ)
    (w : List Char) (h : 0 ≤ tpw) : 0 ≤ wordDur text tpw n w := by
  rw [wordDur]
  have h1 : (0:ℚ) ≤ (w.length : ℚ) := by positivity
  have h2 : (0:ℚ) ≤ (text.length : ℚ) / (n : ℚ) := by positivity
  exact mul_nonneg h (div_nonneg h1 h2)

theorem wordDur_of_duration_zero (segment : TranscriptSegment)
    (w : List Char) (h : segment.duration = 0) :
    wordDur segment.text (timePerWord segment)
      (tokenize segment.text).length w = 0 := by
  simp [wordDur, timePerWord, h]

theorem timePerWord_nonneg (segment : TranscriptSegment)
    (h : 0 ≤ segment.duration) : 0 ≤ timePerWord segment := by
  rw [timePerWord]; positivity

/-- The total duration the estimator assigns to a segment's tokens is
`duration * (sum of token lengths) / (text length)`. -/
theorem sum_wordDur (segment : TranscriptSegment)
    (h : tokenize segment.text ≠ []) :
    ((tokenize segment.text).map
      (wordDur segment.text (timePerWord segment)
        (tokenize segment.text).length)).sum =
      segment.duration *
        ((((tokenize segment.text).map List.length).sum : ℕ) : ℚ) /
        (segment.text.length : ℚ) := by
  rw [List.map_congr_left (fun w _ => wordDur_est segment w h)]
  have : ∀ w : List Char,
      segment.duration * (w.length : ℚ) / (segment.text.length : ℚ) =
        (segment.duration / (segment.text.length : ℚ)) * (w.length : ℚ) := by
    intro w; ring
  rw [List.map_congr_left (fun w _ => this w)]
  have hcast : ((tokenize segment.text).map fun w => ((w.length : ℕ) : ℚ)).sum
      = ((((tokenize segment.text).map List.length).sum : ℕ) : ℚ) := by
    rw [Nat.cast_list_sum, List.map_map]
    rfl
  rw [List.sum_map_mul_left, hcast]
  ring

end WordTiming

namespace WordTiming

/-! ### Locator lemmas -/

/-- `findIndexFrom` is `findIdx?` with `-1` for "not found". -/
theorem findIndexFrom_eq (p : WordTimestamp → Bool) :
    ∀ ws : List WordTimestamp,
    findIndexFrom p ws = ((ws.findIdx? p).map (fun i : ℕ => (i : ℤ))).getD (-1) := by
  intro ws
  induction ws with
  | nil => rfl
  | cons w ws ih =>
    by_cases hp : p w
    · simp [findIndexFrom, hp]
    · rw [findIndexFrom]
      simp only [hp, if_false, Bool.false_eq_true]
      rw [ih, List.findIdx?_cons]
      simp only [hp, if_false, Bool.false_eq_true, List.findIdx?_start_succ]
      cases h : ws.findIdx? p 0 with
      | none => simp
      | some i =>
        have hne : ((i : ℤ)) ≠ -1 := by omega
        simp [hne]

/-- The Boolean test of `findActiveWord`, as a proposition. -/
theorem findActiveWord_pred (t : ℚ) (w : WordTimestamp) :
    (decide (t ≥ w.start) && decide (t < w.endTime)) = true ↔
      w.start ≤ t ∧ t < w.endTime := by
  simp [ge_iff_le]

theorem findActiveWord_pred_false (t : ℚ) (w : WordTimestamp) :
    (decide (t ≥ w.start) && decide (t < w.endTime)) = false ↔
      ¬(w.start ≤ t ∧ t < w.endTime) :=
  Bool.eq_false_iff.trans (not_congr (findActiveWord_pred t w))

theorem findActiveWord_eq_neg_one_iff (words : List WordTimestamp) (t : ℚ) :
    findActiveWord words t = -1 ↔
      ∀ w ∈ words, ¬(w.start ≤ t ∧ t < w.endTime) := by
  rw [findActiveWord, findIndexFrom_eq]
  cases h : words.findIdx? (fun w => decide (t ≥ w.start) &&
      decide (t < w.endTime)) 0 with
  | none =>
    simp only [Option.map_none', Option.getD_none]
    constructor
    · intro _ w hw
      exact (findActiveWord_pred_false t w).mp
        (List.findIdx?_eq_none_iff.mp h w hw)
    · intro _; trivial
  | some i =>
    simp only [Option.map_some', Option.getD_some]
    constructor
    · intro hcontra
      exact absurd hcontra (by omega)
    · intro hall
      exfalso
      rw [List.findIdx?_eq_some_iff_getElem] at h
      obtain ⟨hi, hpi, -⟩ := h
      exact hall words[i] (List.getElem_mem hi)
        ((findActiveWord_pred t _).mp hpi)

theorem findActiveWord_eq_coe_iff (words : List WordTimestamp) (t : ℚ)
    (j : ℕ) :
    findActiveWord words t = (j : ℤ) ↔
      ∃ h : j < words.length,
        (words[j].start ≤ t ∧ t < words[j].endTime) ∧
        ∀ i (hi : i < j),
          ¬((words.get ⟨i, Nat.lt_trans hi h⟩).start ≤ t ∧
            t < (words.get ⟨i, Nat.lt_trans hi h⟩).endTime) := by
  rw [findActiveWord, findIndexFrom_eq]
  cases h : words.findIdx? (fun w => decide (t ≥ w.start) &&
      decide (t < w.endTime)) 0 with
  | none =>
    simp only [Option.map_none', Option.getD_none]
    constructor
    · intro hcontra
      exact absurd hcontra (by omega)
    · rintro ⟨hj, hsat, -⟩
      exfalso
      exact absurd hsat ((findActiveWord_pred_false t _).mp
        (List.findIdx?_eq_none_iff.mp h _ (List.getElem_mem hj)))
  | some i =>
    simp only [Option.map_some', Option.getD_some]
    rw [List.findIdx?_eq_some_iff_getElem] at h
    obtain ⟨hi, hpi, hprev⟩ := h
    constructor
    · intro hij
      have hij' : i = j := by omega
      subst hij'
      refine ⟨hi, (findActiveWord_pred t _).mp hpi, ?_⟩
      intro m hm
      exact (findActiveWord_pred_false t _).mp
        (Bool.not_eq_true _ ▸ (by simpa using hprev m hm))
    · rintro ⟨hj, hsat, hjprev⟩
      have hij : i = j := by
        rcases Nat.lt_trichotomy i j with hlt | heq | hgt
        · exact absurd ((findActiveWord_pred t _).mp hpi) (hjprev i hlt)
        · exact heq
        · exact absurd hsat ((findActiveWord_pred_false t _).mp
            (by simpa using hprev j hgt))
      omega

end WordTiming

namespace WordTiming

theorem prefDur_succ_of_getElem? (text : List Char) (tpw : ℚ) (n : ℕ)
    (ws : List (List Char)) (j : ℕ) (w : List Char) (h : ws[j]? = some w) :
    prefDur text tpw n ws (j + 1) =
      prefDur text tpw n ws j + wordDur text tpw n w := by
  simp [prefDur, List.take_succ, h]

/-- The `j`-th record's width is exactly the duration assigned to the
`j`-th token. -/
theorem estimateWordTimings_width (segment : TranscriptSegment) (k j : ℕ)
    (w : List Char) (r : WordTimestamp)
    (hw : (tokenize segment.text)[j]? = some w)
    (hr : (estimateWordTimings segment k)[j]? = some r) :
    r.endTime - r.start =
      wordDur segment.text (timePerWord segment)
        (tokenize segment.text).length w := by
  rw [estimateWordTimings_getElem?, hw, Option.map_some',
    Option.some.injEq] at hr
  rw [← hr]
  simp only []
  rw [prefDur_succ_of_getElem? _ _ _ _ _ _ hw]
  ring

end WordTiming

namespace WordTiming

/-- C1: for a segment whose text splits into `N ≥ 1` tokens, the `j`-th
record's duration (`end - start`) equals `timePerWord * lengthFactor`,
where `timePerWord = duration / N`, `avgWordLength = text.length / N`
(the length of the original text string, spaces and punctuation included)
and `lengthFactor = tokenLength / avgWordLength`; equivalently it equals
`duration * tokenLength / text.length`. -/
theorem claim_C1_word_duration (segment : TranscriptSegment) (k j : ℕ)
    (w : List Char) (hw : (tokenize segment.text)[j]? = some w) :
    ((estimateWordTimings segment k)[j]?.map fun r => r.endTime - r.start) =
      some ((segment.duration / ((tokenize segment.text).length : ℚ)) *
        ((w.length : ℚ) /
          ((segment.text.length : ℚ) / ((tokenize segment.text).length : ℚ)))) ∧
    ((estimateWordTimings segment k)[j]?.map fun r => r.endTime - r.start) =
      some (segment.duration * (w.length : ℚ) / (segment.text.length : ℚ)) := by
  have hne : tokenize segment.text ≠ [] := by
    intro hcon
    rw [hcon] at hw
    simp at hw
  have hr : (estimateWordTimings segment k)[j]? ≠ none := by
    rw [estimateWordTimings_getElem?, hw]
    simp
  cases hrr : (estimateWordTimings segment k)[j]? with
  | none => exact absurd hrr hr
  | some r =>
    have hwidth := estimateWordTimings_width segment k j w r hw hrr
    rw [Option.map_some']
    constructor
    · rw [hwidth]
      rfl
    · rw [hwidth, wordDur_est segment w hne]

theorem claim_C1_word_duration_witness :
    (((estimateWordTimings ⟨("ab cd".toList), 0, 1⟩ 3)[0]?).map
        fun r => r.endTime - r.start) =
      some (((⟨("ab cd".toList), 0, 1⟩ : TranscriptSegment).duration /
          ((tokenize ("ab cd".toList)).length : ℚ)) *
        (((("ab".toList)).length : ℚ) /
          (((("ab cd".toList)).length : ℚ) /
            ((tokenize ("ab cd".toList)).length : ℚ)))) ∧
    (((estimateWordTimings ⟨("ab cd".toList), 0, 1⟩ 3)[0]?).map
        fun r => r.endTime - r.start) =
      some ((⟨("ab cd".toList), 0, 1⟩ : TranscriptSegment).duration *
        ((("ab".toList)).length : ℚ) / ((("ab cd".toList)).length : ℚ)) :=
  claim_C1_word_duration ⟨("ab cd".toList), 0, 1⟩ 3 0 ("ab".toList) (by decide)

/-- C2: for a segment with `N ≥ 1` tokens the estimator returns exactly
`N` records; each record's `word` is the corresponding raw token in order,
its `segmentIndex` is the given one, and the `wordIndex` fields are
`0, 1, ..., N-1` in order. -/
theorem claim_C2_record_fields (segment : TranscriptSegment) (k : ℕ)
    (hN : 1 ≤ (tokenize segment.text).length) :
    (estimateWordTimings segment k).length = (tokenize segment.text).length ∧
    ∀ (j : ℕ) (r : WordTimestamp),
      (estimateWordTimings segment k)[j]? = some r →
      (tokenize segment.text)[j]? = some r.word ∧
      r.segmentIndex = k ∧ r.wordIndex = j := by
  refine ⟨estimateWordTimings_length segment k, ?_⟩
  intro j r hr
  rw [estimateWordTimings_getElem?] at hr
  cases hw : (tokenize segment.text)[j]? with
  | none => rw [hw] at hr; exact Option.noConfusion hr
  | some w =>
    rw [hw, Option.map_some', Option.some.injEq] at hr
    rw [← hr]
    exact ⟨rfl, rfl, rfl⟩

theorem claim_C2_record_fields_witness :
    (estimateWordTimings ⟨("ab cd".toList), 0, 1⟩ 3).length =
      (tokenize ("ab cd".toList)).length ∧
    ∀ (j : ℕ) (r : WordTimestamp),
      (estimateWordTimings ⟨("ab cd".toList), 0, 1⟩ 3)[j]? = some r →
      (tokenize ("ab cd".toList))[j]? = some r.word ∧
      r.segmentIndex = 3 ∧ r.wordIndex = j :=
  claim_C2_record_fields ⟨("ab cd".toList), 0, 1⟩ 3 (by decide)

theorem estimateWordTimings_head?_start (segment : TranscriptSegment)
    (k : ℕ) (r : WordTimestamp)
    (h0 : (estimateWordTimings segment k).head? = some r) :
    r.start = segment.start := by
  rw [List.head?_eq_getElem?, estimateWordTimings_getElem?] at h0
  cases hw : (tokenize segment.text)[0]? with
  | none => rw [hw] at h0; exact Option.noConfusion h0
  | some w =>
    rw [hw, Option.map_some', Option.some.injEq] at h0
    rw [← h0]
    simp [prefDur_zero]

theorem estimateWordTimings_continuity (segment : TranscriptSegment)
    (k : ℕ) : ∀ (j : ℕ) (r r' : WordTimestamp),
    (estimateWordTimings segment k)[j]? = some r →
    (estimateWordTimings segment k)[j + 1]? = some r' →
    r.endTime = r'.start := by
  intro j r r' hr hr'
  rw [estimateWordTimings_getElem?] at hr hr'
  cases hw : (tokenize segment.text)[j]? with
  | none => rw [hw] at hr; exact Option.noConfusion hr
  | some w =>
    cases hw' : (tokenize segment.text)[j + 1]? with
    | none => rw [hw'] at hr'; exact Option.noConfusion hr'
    | some w' =>
      rw [hw, Option.map_some', Option.some.injEq] at hr
      rw [hw', Option.map_some', Option.some.injEq] at hr'
      rw [← hr, ← hr']

/-- C3: for a segment with at least one token, the first record starts at
`segment.start`, and each record's `end` equals the next record's `start`
(cursor continuity: no gaps or overlaps within a segment). -/
theorem claim_C3_cursor_continuity (segment : TranscriptSegment) (k : ℕ)
    (h : estimateWordTimings segment k ≠ []) :
    ((estimateWordTimings segment k).head h).start = segment.start ∧
    ∀ (j : ℕ) (r r' : WordTimestamp),
      (estimateWordTimings segment k)[j]? = some r →
      (estimateWordTimings segment k)[j + 1]? = some r' →
      r.endTime = r'.start :=
  ⟨estimateWordTimings_head?_start segment k _ (List.head?_eq_head h),
    estimateWordTimings_continuity segment k⟩

theorem claim_C3_cursor_continuity_witness :
    ((estimateWordTimings ⟨("ab cd".toList), 0, 1⟩ 3).head
        (by decide)).start = (⟨("ab cd".toList), 0, 1⟩ :
          TranscriptSegment).start ∧
    ∀ (j : ℕ) (r r' : WordTimestamp),
      (estimateWordTimings ⟨("ab cd".toList), 0, 1⟩ 3)[j]? = some r →
      (estimateWordTimings ⟨("ab cd".toList), 0, 1⟩ 3)[j + 1]? = some r' →
      r.endTime = r'.start :=
  claim_C3_cursor_continuity ⟨("ab cd".toList), 0, 1⟩ 3 (by decide)

end WordTiming

namespace WordTiming

theorem estimateLoop_sum_width (text : List Char) (tpw : ℚ) (n k : ℕ) :
    ∀ (ws : List (List Char)) (c : ℚ) (i : ℕ),
    ((estimateLoop text tpw n k ws c i).map fun r => r.endTime - r.start).sum
      = (ws.map (wordDur text tpw n)).sum := by
  intro ws
  induction ws with
  | nil => intro c i; rfl
  | cons w ws ih =>
    intro c i
    rw [estimateLoop_cons]
    simp only [List.map_cons, List.sum_cons, ih]
    ring_nf

/-- The total duration assigned to a segment is at most its duration
(the tokens' total length is at most the text's length). -/
theorem total_wordDur_le (segment : TranscriptSegment)
    (h : tokenize segment.text ≠ []) (hdur : 0 ≤ segment.duration) :
    ((tokenize segment.text).map
      (wordDur segment.text (timePerWord segment)
        (tokenize segment.text).length)).sum ≤ segment.duration := by
  rw [sum_wordDur segment h]
  have hL : (0:ℚ) < (segment.text.length : ℚ) := by
    exact_mod_cast text_length_pos_of_tokenize_ne_nil h
  rw [div_le_iff₀ hL]
  have hsum : ((((tokenize segment.text).map List.length).sum : ℕ) : ℚ) ≤
      (segment.text.length : ℚ) := by
    exact_mod_cast tokenize_sum_length_le segment.text
  exact mul_le_mul_of_nonneg_left hsum hdur

theorem estimateWordTimings_width_exists (segment : TranscriptSegment)
    (k : ℕ) : ∀ r ∈ estimateWordTimings segment k,
      ∃ w, r.endTime - r.start =
        wordDur segment.text (timePerWord segment)
          (tokenize segment.text).length w := by
  intro r hr
  obtain ⟨j, hj⟩ := List.mem_iff_getElem?.mp hr
  have hw : (tokenize segment.text)[j]? ≠ none := by
    intro hcon
    rw [estimateWordTimings_getElem?, hcon] at hj
    exact Option.noConfusion hj
  cases hww : (tokenize segment.text)[j]? with
  | none => exact absurd hww hw
  | some w =>
    exact ⟨w, estimateWordTimings_width segment k j w r hww hj⟩

theorem estimateWordTimings_start_le_endTime (segment : TranscriptSegment)
    (k : ℕ) (hdur : 0 ≤ segment.duration) :
    ∀ r ∈ estimateWordTimings segment k, r.start ≤ r.endTime := by
  intro r hr
  obtain ⟨w, hwidth⟩ := estimateWordTimings_width_exists segment k r hr
  have := wordDur_nonneg segment.text (timePerWord segment)
    (tokenize segment.text).length w (timePerWord_nonneg segment hdur)
  linarith

/-- C6 (amended): for segments with non-negative duration every record is a
valid interval (`end ≥ start`), and a zero duration produces zero-width
intervals; a negative duration, however, produces negative-width intervals
(see `claim_C6_counterexample`), not the zero-width intervals the original
claim asserts. -/
theorem claim_C6_interval_validity (segment : TranscriptSegment) (k : ℕ)
    (hdur : 0 ≤ segment.duration) :
    (∀ r ∈ estimateWordTimings segment k, r.start ≤ r.endTime) ∧
    (segment.duration = 0 →
      ∀ r ∈ estimateWordTimings segment k, r.endTime = r.start) := by
  refine ⟨estimateWordTimings_start_le_endTime segment k hdur, ?_⟩
  intro hzero r hr
  obtain ⟨w, hwidth⟩ := estimateWordTimings_width_exists segment k r hr
  rw [wordDur_of_duration_zero segment w hzero] at hwidth
  linarith

theorem claim_C6_interval_validity_witness :
    (∀ r ∈ estimateWordTimings ⟨("ab cd".toList), 0, 1⟩ 3,
      r.start ≤ r.endTime) ∧
    ((⟨("ab cd".toList), 0, 1⟩ : TranscriptSegment).duration = 0 →
      ∀ r ∈ estimateWordTimings ⟨("ab cd".toList), 0, 1⟩ 3,
        r.endTime = r.start) :=
  claim_C6_interval_validity ⟨("ab cd".toList), 0, 1⟩ 3 (by decide)

/-- C6 (counterexample): a segment with negative duration yields a record
with `end < start`, refuting `end ≥ start` for "every input segment
including negative durations". -/
theorem claim_C6_counterexample :
    ∃ r ∈ estimateWordTimings ⟨("ab cd".toList), 0, -1⟩ 0,
      r.endTime < r.start := by
  have htok : (tokenize ("ab cd".toList))[0]? = some ("ab".toList) := by
    decide
  have hne : (estimateWordTimings ⟨("ab cd".toList), 0, -1⟩ 0)[0]? ≠ none := by
    rw [estimateWordTimings_getElem?, htok]
    simp
  cases hrr : (estimateWordTimings ⟨("ab cd".toList), 0, -1⟩ 0)[0]? with
  | none => exact absurd hrr hne
  | some r =>
    refine ⟨r, List.mem_iff_getElem?.mpr ⟨0, hrr⟩, ?_⟩
    have hwidth := estimateWordTimings_width ⟨("ab cd".toList), 0, -1⟩ 0 0
      ("ab".toList) r htok hrr
    have hlen1 : ((tokenize ("ab cd".toList)).length : ℚ) = 2 := by
      rw [show (tokenize ("ab cd".toList)).length = 2 from by decide]
      norm_num
    have hlen2 : ((("ab cd".toList)).length : ℚ) = 5 := by
      rw [show (("ab cd".toList)).length = 5 from by decide]
      norm_num
    have hlen3 : ((("ab".toList)).length : ℚ) = 2 := by
      rw [show (("ab".toList)).length = 2 from by decide]
      norm_num
    rw [wordDur, timePerWord, hlen1, hlen3] at hwidth
    simp only [] at hwidth
    have hval : r.endTime - r.start = -2/5 := by
      rw [hwidth, hlen2]
      norm_num
    linarith

/-- C7: a segment with no parsable words contributes an empty result — the
estimator returns the empty sequence and the batch form skips the segment
(no records, no error). -/
theorem claim_C7_zero_tokens (segment : TranscriptSegment) (k n : ℕ)
    (rest : List TranscriptSegment) (h : tokenize segment.text = []) :
    estimateWordTimings segment k = [] ∧
    generateFrom n (segment :: rest) = generateFrom (n + 1) rest := by
  refine ⟨estimateWordTimings_of_tokenize_nil segment k h, ?_⟩
  show estimateWordTimings segment n ++ generateFrom (n + 1) rest = _
  rw [estimateWordTimings_of_tokenize_nil segment n h, List.nil_append]

theorem claim_C7_zero_tokens_witness :
    estimateWordTimings ⟨("   ".toList), 0, 1⟩ 0 = [] ∧
    generateFrom 0 [⟨("   ".toList), 0, 1⟩] = generateFrom 1 [] :=
  claim_C7_zero_tokens ⟨("   ".toList), 0, 1⟩ 0 0 [] (by decide)

theorem estimateWordTimings_getLast_le (segment : TranscriptSegment)
    (k : ℕ) (hdur : 0 ≤ segment.duration)
    (h : estimateWordTimings segment k ≠ []) :
    ((estimateWordTimings segment k).getLast h).endTime ≤
      segment.start + segment.duration := by
  have hne : tokenize segment.text ≠ [] := by
    intro hcon
    exact h (estimateWordTimings_of_tokenize_nil segment k hcon)
  · have hlen : 0 < (estimateWordTimings segment k).length :=
      List.length_pos.mpr h
    have hlast : (estimateWordTimings segment k)[(estimateWordTimings
        segment k).length - 1]? = some ((estimateWordTimings segment k).getLast h) := by
      rw [List.getLast_eq_getElem]
      exact List.getElem?_eq_getElem _
    rw [estimateWordTimings_getElem?] at hlast
    have hlen' : (estimateWordTimings segment k).length - 1 <
        (tokenize segment.text).length := by
      rw [estimateWordTimings_length] at hlen ⊢
      omega
    cases hw : (tokenize segment.text)[(estimateWordTimings segment k).length - 1]? with
    | none =>
      rw [List.getElem?_eq_getElem hlen'] at hw
      exact Option.noConfusion hw
    | some w =>
      rw [hw, Option.map_some', Option.some.injEq] at hlast
      rw [← hlast]
      simp only []
      have hsucc : (estimateWordTimings segment k).length - 1 + 1 =
          (tokenize segment.text).length := by
        rw [estimateWordTimings_length] at hlen ⊢
        omega
      rw [hsucc]
      have htot : prefDur segment.text (timePerWord segment)
          (tokenize segment.text).length (tokenize segment.text)
          (tokenize segment.text).length =
          ((tokenize segment.text).map
            (wordDur segment.text (timePerWord segment)
              (tokenize segment.text).length)).sum := by
        rw [prefDur, List.take_length]
      rw [htot]
      have := total_wordDur_le segment hne hdur
      linarith

/-- C9: for a segment with non-negative duration and at least one token,
the total assigned duration never exceeds `segment.duration`, and the last
record ends no later than `segment.start + segment.duration` — drift is
always a shortfall, never an overrun. -/
theorem claim_C9_no_overrun (segment : TranscriptSegment) (k : ℕ)
    (hdur : 0 ≤ segment.duration)
    (h : estimateWordTimings segment k ≠ []) :
    ((estimateWordTimings segment k).map fun r => r.endTime - r.start).sum ≤
      segment.duration ∧
    ((estimateWordTimings segment k).getLast h).endTime ≤
      segment.start + segment.duration := by
  have hne : tokenize segment.text ≠ [] := by
    intro hcon
    exact h (estimateWordTimings_of_tokenize_nil segment k hcon)
  constructor
  · rw [estimateWordTimings_eq_loop segment k hne, estimateLoop_sum_width]
    exact total_wordDur_le segment hne hdur
  · exact estimateWordTimings_getLast_le segment k hdur h

theorem claim_C9_no_overrun_witness :
    ((estimateWordTimings ⟨("ab cd".toList), 0, 1⟩ 3).map
      fun r => r.endTime - r.start).sum ≤
      (⟨("ab cd".toList), 0, 1⟩ : TranscriptSegment).duration ∧
    ((estimateWordTimings ⟨("ab cd".toList), 0, 1⟩ 3).getLast
        (by decide)).endTime ≤
      (⟨("ab cd".toList), 0, 1⟩ : TranscriptSegment).start +
        (⟨("ab cd".toList), 0, 1⟩ : TranscriptSegment).duration :=
  claim_C9_no_overrun ⟨("ab cd".toList), 0, 1⟩ 3 (by decide) (by decide)

end WordTiming

namespace WordTiming

/-- C4: `findActiveWord(words, t)` returns the least index `j` with
`t >= words[j].start` and `t < words[j].end` (scanning in order) and `-1`
when no record satisfies the half-open-interval test; a record with
`start = end` is never returned, and for a segment with `duration = 0` and
3 words all 3 records are unreachable by any locate call. -/
theorem claim_C4_locator (words : List WordTimestamp) (t : ℚ) :
    (∀ j : ℕ, findActiveWord words t = (j : ℤ) ↔
      ∃ h : j < words.length,
        (words[j].start ≤ t ∧ t < words[j].endTime) ∧
        ∀ i (hi : i < j), ¬((words.get ⟨i, Nat.lt_trans hi h⟩).start ≤ t ∧
          t < (words.get ⟨i, Nat.lt_trans hi h⟩).endTime)) ∧
    (findActiveWord words t = -1 ↔
      ∀ w ∈ words, ¬(w.start ≤ t ∧ t < w.endTime)) ∧
    (∀ (j : ℕ) (h : j < words.length),
      words[j].start = words[j].endTime →
      findActiveWord words t ≠ (j : ℤ)) ∧
    (∀ (segment : TranscriptSegment) (k : ℕ), segment.duration = 0 →
      (tokenize segment.text).length = 3 →
      ∀ t' : ℚ, findActiveWord (estimateWordTimings segment k) t' = -1) := by
  refine ⟨fun j => findActiveWord_eq_coe_iff words t j,
    findActiveWord_eq_neg_one_iff words t, ?_, ?_⟩
  · intro j h hzero hcon
    obtain ⟨h', ⟨h1, h2⟩, -⟩ :=
      (findActiveWord_eq_coe_iff words t j).mp hcon
    rw [hzero] at h1
    exact absurd (lt_of_le_of_lt h1 h2) (lt_irrefl _)
  · intro segment k hzero _ t'
    rw [findActiveWord_eq_neg_one_iff]
    intro w hw hsat
    obtain ⟨tok, hwidth⟩ := estimateWordTimings_width_exists segment k w hw
    rw [wordDur_of_duration_zero segment tok hzero] at hwidth
    obtain ⟨h1, h2⟩ := hsat
    linarith

end WordTiming

namespace WordTiming

/-- The first record of a flattened transcript starts at one of its
segments' start times. -/
theorem generateFrom_head?_start :
    ∀ (ts : List TranscriptSegment) (n : ℕ) (w : WordTimestamp),
    (generateFrom n ts).head? = some w → ∃ s ∈ ts, w.start = s.start := by
  intro ts
  induction ts with
  | nil => intro n w h; exact Option.noConfusion h
  | cons seg rest ih =>
    intro n w h
    have hgen : generateFrom n (seg :: rest) =
        estimateWordTimings seg n ++ generateFrom (n + 1) rest := rfl
    rw [hgen] at h
    cases he : estimateWordTimings seg n with
    | nil =>
      rw [he, List.nil_append] at h
      obtain ⟨s, hs, hw⟩ := ih (n + 1) w h
      exact ⟨s, List.mem_cons_of_mem _ hs, hw⟩
    | cons r rs =>
      rw [he, List.cons_append, List.head?_cons, Option.some.injEq] at h
      refine ⟨seg, List.mem_cons_self _ _, ?_⟩
      rw [← h]
      exact estimateWordTimings_head?_start seg n r (by rw [he]; rfl)

/-- Within a segment the records chain end-to-start (with equality, hence
`≤`). -/
theorem estimateWordTimings_chain (segment : TranscriptSegment) (k : ℕ) :
    List.Chain' (fun a b : WordTimestamp => a.endTime ≤ b.start)
      (estimateWordTimings segment k) := by
  rw [List.chain'_iff_get]
  intro i hi
  have h1 : (estimateWordTimings segment k)[i]? =
      some ((estimateWordTimings segment k).get ⟨i, by omega⟩) := by
    rw [List.get_eq_getElem]
    exact List.getElem?_eq_getElem (by omega)
  have h2 : (estimateWordTimings segment k)[i + 1]? =
      some ((estimateWordTimings segment k).get ⟨i + 1, by omega⟩) := by
    rw [List.get_eq_getElem]
    exact List.getElem?_eq_getElem (by omega)
  exact le_of_eq (estimateWordTimings_continuity segment k i _ _ h1 h2)

/-- The whole flattened output chains end-to-start when the segments are
ordered and non-overlapping with non-negative durations. -/
theorem generateFrom_chain :
    ∀ (ts : List TranscriptSegment) (n : ℕ),
    List.Pairwise (fun a b => a.start + a.duration ≤ b.start) ts →
    (∀ s ∈ ts, 0 ≤ s.duration) →
    List.Chain' (fun a b : WordTimestamp => a.endTime ≤ b.start)
      (generateFrom n ts) := by
  intro ts
  induction ts with
  | nil => intro n _ _; exact List.chain'_nil
  | cons seg rest ih =>
    intro n hpair hdur
    rw [List.pairwise_cons] at hpair
    show List.Chain' _ (estimateWordTimings seg n ++ generateFrom (n + 1) rest)
    rw [List.chain'_append]
    refine ⟨estimateWordTimings_chain seg n,
      ih (n + 1) hpair.2 (fun s hs => hdur s (List.mem_cons_of_mem _ hs)),
      ?_⟩
    intro x hx y hy
    have hne : estimateWordTimings seg n ≠ [] := by
      intro hc
      rw [hc] at hx
      exact Option.noConfusion hx
    have hx' : (estimateWordTimings seg n).getLast hne = x := by
      have := List.getLast?_eq_getLast _ hne
      rw [this, Option.mem_def, Option.some.injEq] at hx
      exact hx
    have hxe : x.endTime ≤ seg.start + seg.duration := by
      rw [← hx']
      exact estimateWordTimings_getLast_le seg n
        (hdur seg (List.mem_cons_self _ _)) hne
    obtain ⟨s, hs, hystart⟩ := generateFrom_head?_start rest (n + 1) y hy
    have hss := hpair.1 s hs
    rw [hystart]
    linarith

theorem generateFrom_start_le_endTime :
    ∀ (ts : List TranscriptSegment) (n : ℕ),
    (∀ s ∈ ts, 0 ≤ s.duration) →
    ∀ w ∈ generateFrom n ts, w.start ≤ w.endTime := by
  intro ts
  induction ts with
  | nil => intro n _ w hw; exact absurd hw (List.not_mem_nil w)
  | cons seg rest ih =>
    intro n hdur w hw
    have hgen : generateFrom n (seg :: rest) =
        estimateWordTimings seg n ++ generateFrom (n + 1) rest := rfl
    rw [hgen, List.mem_append] at hw
    rcases hw with hw | hw
    · exact estimateWordTimings_start_le_endTime seg n
        (hdur seg (List.mem_cons_self _ _)) w hw
    · exact ih (n + 1) (fun s hs => hdur s (List.mem_cons_of_mem _ hs)) w hw

/-- An end-to-start chain of valid intervals is pairwise monotone in both
endpoints. -/
theorem wordChain_pairwise (words : List WordTimestamp)
    (hchain : List.Chain' (fun a b => a.endTime ≤ b.start) words)
    (hse : ∀ w ∈ words, w.start ≤ w.endTime) :
    List.Pairwise (fun a b : WordTimestamp =>
      a.start ≤ b.start ∧ a.endTime ≤ b.endTime) words := by
  have hchainS : List.Chain' (fun a b : WordTimestamp =>
      a.start ≤ b.start ∧ a.endTime ≤ b.endTime) words := by
    rw [List.chain'_iff_get] at hchain ⊢
    intro i hi
    have h1 := hchain i hi
    have ha := hse (words.get ⟨i, by omega⟩)
      (List.get_mem words i (by omega))
    have hb := hse (words.get ⟨i + 1, by omega⟩)
      (List.get_mem words (i + 1) (by omega))
    exact ⟨le_trans ha h1, le_trans h1 hb⟩
  exact (@List.chain'_iff_pairwise _ _
    ⟨fun a b c hab hbc => ⟨le_trans hab.1 hbc.1, le_trans hab.2 hbc.2⟩⟩
    words).mp hchainS

end WordTiming

namespace WordTiming

/-- C5: for a non-empty word list generated from a transcript in
non-decreasing start order, pairwise non-overlapping, with every start ≥ 0
and every duration > 0, `findActiveWord` returns -1 for every `t` below
the first word's start (hence for every negative `t`) and for every `t` at
or past the last word's end. -/
theorem claim_C5_locate_outside (transcript : List TranscriptSegment)
    (hsorted : List.Pairwise (fun a b => a.start ≤ b.start) transcript)
    (hdisjoint : List.Pairwise (fun a b =>
      a.start + a.duration ≤ b.start ∨ b.start + b.duration ≤ a.start)
      transcript)
    (hstart : ∀ s ∈ transcript, 0 ≤ s.start)
    (hdur : ∀ s ∈ transcript, 0 < s.duration)
    (h : generateWordTimestamps transcript ≠ []) (t : ℚ) :
    (t < ((generateWordTimestamps transcript).head h).start →
      findActiveWord (generateWordTimestamps transcript) t = -1) ∧
    (t < 0 → findActiveWord (generateWordTimestamps transcript) t = -1) ∧
    (((generateWordTimestamps transcript).getLast h).endTime ≤ t →
      findActiveWord (generateWordTimestamps transcript) t = -1) := by
  have hdur0 : ∀ s ∈ transcript, 0 ≤ s.duration :=
    fun s hs => le_of_lt (hdur s hs)
  have hpair : List.Pairwise
      (fun a b => a.start + a.duration ≤ b.start) transcript := by
    rw [List.pairwise_iff_getElem] at hsorted hdisjoint ⊢
    intro i j hi hj hij
    rcases hdisjoint i j hi hj hij with hc | hc
    · exact hc
    · exfalso
      have h1 := hsorted i j hi hj hij
      have h2 := hdur (transcript[j]) (List.getElem_mem hj)
      linarith
  have hgen : generateWordTimestamps transcript =
      generateFrom 0 transcript := rfl
  have hchain := generateFrom_chain transcript 0 hpair hdur0
  have hse := generateFrom_start_le_endTime transcript 0 hdur0
  rw [← hgen] at hchain hse
  have hpairS := wordChain_pairwise _ hchain hse
  rw [List.pairwise_iff_getElem] at hpairS
  have hlen : 0 < (generateWordTimestamps transcript).length :=
    List.length_pos.mpr h
  have hhead : (generateWordTimestamps transcript).head h =
      (generateWordTimestamps transcript).get ⟨0, hlen⟩ :=
    List.head_eq_getElem _ h
  have key : ∀ t' : ℚ,
      t' < ((generateWordTimestamps transcript).head h).start →
      findActiveWord (generateWordTimestamps transcript) t' = -1 := by
    intro t' ht'
    rw [findActiveWord_eq_neg_one_iff]
    intro w hw hsat
    obtain ⟨m, hm, hweq⟩ := List.mem_iff_getElem.mp hw
    have hstartle : ((generateWordTimestamps transcript).head h).start ≤
        w.start := by
      cases Nat.eq_zero_or_pos m with
      | inl h0 =>
        subst h0
        rw [← hweq, hhead, List.get_eq_getElem]
      | inr hpos =>
        have hS := hpairS 0 m hlen hm hpos
        rw [← hweq, hhead, List.get_eq_getElem]
        exact hS.1
    exact absurd hsat.1 (by linarith)
  refine ⟨key t, ?_, ?_⟩
  · intro ht
    have h0 : 0 ≤ ((generateWordTimestamps transcript).head h).start := by
      obtain ⟨s, hs, heq⟩ := generateFrom_head?_start transcript 0 _
        (List.head?_eq_head h)
      rw [heq]
      exact hstart s hs
    exact key t (lt_of_lt_of_le ht h0)
  · intro ht
    rw [findActiveWord_eq_neg_one_iff]
    intro w hw hsat
    obtain ⟨m, hm, hweq⟩ := List.mem_iff_getElem.mp hw
    have hlast : (generateWordTimestamps transcript).getLast h =
        (generateWordTimestamps transcript).get
          ⟨(generateWordTimestamps transcript).length - 1, by omega⟩ :=
      List.getLast_eq_getElem _ h
    have hendle : w.endTime ≤
        ((generateWordTimestamps transcript).getLast h).endTime := by
      cases Nat.lt_or_ge m
          ((generateWordTimestamps transcript).length - 1) with
      | inl hlt =>
        have hS := hpairS m _ hm (by omega) hlt
        rw [← hweq, hlast, List.get_eq_getElem]
        exact hS.2
      | inr hge =>
        have hmeq : m = (generateWordTimestamps transcript).length - 1 := by
          omega
        subst hmeq
        rw [← hweq, hlast, List.get_eq_getElem]
    exact absurd hsat.2 (by linarith)

theorem claim_C5_locate_outside_witness :
    (∀ t : ℚ, t < ((generateWordTimestamps
        [⟨("ab cd".toList), 0, 1⟩]).head (by decide)).start →
      findActiveWord (generateWordTimestamps [⟨("ab cd".toList), 0, 1⟩]) t =
        -1) ∧
    (∀ t : ℚ, t < 0 →
      findActiveWord (generateWordTimestamps [⟨("ab cd".toList), 0, 1⟩]) t =
        -1) ∧
    (∀ t : ℚ, ((generateWordTimestamps
        [⟨("ab cd".toList), 0, 1⟩]).getLast (by decide)).endTime ≤ t →
      findActiveWord (generateWordTimestamps [⟨("ab cd".toList), 0, 1⟩]) t =
        -1) := by
  have hs := fun t : ℚ => claim_C5_locate_outside [⟨("ab cd".toList), 0, 1⟩]
    (by simp) (by simp) (by simp) (by simp) (by decide) t
  exact ⟨fun t => (hs t).1, fun t => (hs t).2.1, fun t => (hs t).2.2⟩

end WordTiming

namespace WordTiming

/-! ### Character-level lemmas for the word normalizer -/

theorem char_eq_of_toNat_eq {a b : Char} (h : a.toNat = b.toNat) : a = b := by
  apply Char.ext
  apply UInt32.eq_of_toBitVec_eq
  apply BitVec.eq_of_toNat_eq
  exact h

theorem char_eq_iff_toNat {a b : Char} : a = b ↔ a.toNat = b.toNat :=
  ⟨fun h => h ▸ rfl, char_eq_of_toNat_eq⟩

theorem toNat_ofNat_lower {n : ℕ} (h1 : 97 ≤ n) (h2 : n ≤ 122) :
    (Char.ofNat n).toNat = n := by
  interval_cases n <;> decide

theorem contains_iff_mem (l : List Char) (c : Char) :
    l.contains c = true ↔ c ∈ l :=
  List.elem_iff

theorem isWS_iff_toNat (c : Char) :
    isWS c = true ↔ (c.toNat = 32 ∨ c.toNat = 9 ∨ c.toNat = 10 ∨
      c.toNat = 11 ∨ c.toNat = 12 ∨ c.toNat = 13 ∨ c.toNat = 160) := by
  rw [isWS, contains_iff_mem]
  simp only [List.mem_cons, List.not_mem_nil, or_false, char_eq_iff_toNat]
  have e1 : (' ' : Char).toNat = 32 := rfl
  have e2 : ('\t' : Char).toNat = 9 := rfl
  have e3 : ('\n' : Char).toNat = 10 := rfl
  have e4 : ('\x0b' : Char).toNat = 11 := rfl
  have e5 : ('\x0c' : Char).toNat = 12 := rfl
  have e6 : ('\r' : Char).toNat = 13 := rfl
  have e7 : ('\u00A0' : Char).toNat = 160 := rfl
  rw [e1, e2, e3, e4, e5, e6, e7]

theorem mem_punctuation_iff_toNat (c : Char) :
    c ∈ punctuation ↔ (c.toNat = 9834 ∨ c.toNat = 91 ∨ c.toNat = 93 ∨
      c.toNat = 40 ∨ c.toNat = 41 ∨ c.toNat = 46 ∨ c.toNat = 44 ∨
      c.toNat = 33 ∨ c.toNat = 63 ∨ c.toNat = 59 ∨ c.toNat = 58 ∨
      c.toNat = 39 ∨ c.toNat = 34) := by
  rw [punctuation]
  simp only [List.mem_cons, List.not_mem_nil, or_false, char_eq_iff_toNat]
  have e1 : ('♪' : Char).toNat = 9834 := rfl
  have e2 : ('[' : Char).toNat = 91 := rfl
  have e3 : (']' : Char).toNat = 93 := rfl
  have e4 : ('(' : Char).toNat = 40 := rfl
  have e5 : (')' : Char).toNat = 41 := rfl
  have e6 : ('.' : Char).toNat = 46 := rfl
  have e7 : (',' : Char).toNat = 44 := rfl
  have e8 : ('!' : Char).toNat = 33 := rfl
  have e9 : ('?' : Char).toNat = 63 := rfl
  have e10 : (';' : Char).toNat = 59 := rfl
  have e11 : (':' : Char).toNat = 58 := rfl
  have e12 : ('\'' : Char).toNat = 39 := rfl
  have e13 : ('"' : Char).toNat = 34 := rfl
  rw [e1, e2, e3, e4, e5, e6, e7, e8, e9, e10, e11, e12, e13]

theorem jsToLower_eq_self {c : Char} (h : ¬(65 ≤ c.toNat ∧ c.toNat ≤ 90)) :
    jsToLower c = c := if_neg h

theorem jsToLower_toNat (c : Char) :
    (jsToLower c).toNat =
      if 65 ≤ c.toNat ∧ c.toNat ≤ 90 then c.toNat + 32 else c.toNat := by
  rw [jsToLower]
  split
  · next h => exact toNat_ofNat_lower (by omega) (by omega)
  · rfl

theorem jsToLower_not_upper (c : Char) :
    ¬(65 ≤ (jsToLower c).toNat ∧ (jsToLower c).toNat ≤ 90) := by
  rw [jsToLower_toNat]
  split
  · next h => omega
  · next h => omega

theorem jsToLower_isWS (c : Char) : isWS (jsToLower c) = isWS c := by
  by_cases h : 65 ≤ c.toNat ∧ c.toNat ≤ 90
  · have h1 : isWS (jsToLower c) = false := by
      rw [← Bool.not_eq_true, isWS_iff_toNat, jsToLower_toNat, if_pos h]
      omega
    have h2 : isWS c = false := by
      rw [← Bool.not_eq_true, isWS_iff_toNat]
      omega
    rw [h1, h2]
  · rw [jsToLower_eq_self h]

theorem jsToLower_not_punct {c : Char} (h : c ∉ punctuation) :
    jsToLower c ∉ punctuation := by
  by_cases hc : 65 ≤ c.toNat ∧ c.toNat ≤ 90
  · rw [mem_punctuation_iff_toNat, jsToLower_toNat, if_pos hc]
    omega
  · rwa [jsToLower_eq_self hc]

theorem jsToLower_space : jsToLower ' ' = ' ' :=
  jsToLower_eq_self (by decide)

end WordTiming

namespace WordTiming

/-! ### Collapse / trim lemmas -/

theorem collapseWhitespace_cons2_ww {c d : Char} {cs : List Char}
    (h : isWS c = true) (hd : isWS d = true) :
    collapseWhitespace (c :: d :: cs) = collapseWhitespace (d :: cs) := by
  simp [collapseWhitespace, h, hd]

theorem collapseWhitespace_cons2_wn {c d : Char} {cs : List Char}
    (h : isWS c = true) (hd : ¬isWS d = true) :
    collapseWhitespace (c :: d :: cs) =
      ' ' :: collapseWhitespace (d :: cs) := by
  simp [collapseWhitespace, h, hd]

theorem collapseWhitespace_cons2_n {c d : Char} {cs : List Char}
    (h : ¬isWS c = true) :
    collapseWhitespace (c :: d :: cs) = c :: collapseWhitespace (d :: cs) := by
  simp [collapseWhitespace, h]

theorem collapseWhitespace_mem :
    ∀ (s : List Char), ∀ c ∈ collapseWhitespace s, c ∈ s ∨ c = ' ' := by
  intro s
  induction s using collapseWhitespace.induct with
  | case1 => intro c hc; exact absurd hc (List.not_mem_nil c)
  | case2 c h =>
    intro x hx
    rw [collapseWhitespace, if_pos h] at hx
    right
    simpa using hx
  | case3 c h =>
    intro x hx
    rw [collapseWhitespace, if_neg h] at hx
    left
    simpa using hx
  | case4 c d cs h hd ih =>
    intro x hx
    rw [collapseWhitespace_cons2_ww h hd] at hx
    rcases ih x hx with h1 | h1
    · exact Or.inl (List.mem_cons_of_mem _ h1)
    · exact Or.inr h1
  | case5 c d cs h hd ih =>
    intro x hx
    rw [collapseWhitespace_cons2_wn h hd] at hx
    rcases List.mem_cons.mp hx with h1 | h1
    · exact Or.inr h1
    · rcases ih x h1 with h2 | h2
      · exact Or.inl (List.mem_cons_of_mem _ h2)
      · exact Or.inr h2
  | case6 c d cs h ih =>
    intro x hx
    rw [collapseWhitespace_cons2_n h] at hx
    rcases List.mem_cons.mp hx with h1 | h1
    · exact Or.inl (h1 ▸ List.mem_cons_self _ _)
    · rcases ih x h1 with h2 | h2
      · exact Or.inl (List.mem_cons_of_mem _ h2)
      · exact Or.inr h2

theorem collapseWhitespace_ws :
    ∀ (s : List Char), ∀ c ∈ collapseWhitespace s,
      isWS c = true → c = ' ' := by
  intro s
  induction s using collapseWhitespace.induct with
  | case1 => intro c hc; exact absurd hc (List.not_mem_nil c)
  | case2 c h =>
    intro x hx _
    rw [collapseWhitespace, if_pos h] at hx
    simpa using hx
  | case3 c h =>
    intro x hx hws
    rw [collapseWhitespace, if_neg h] at hx
    have : x = c := by simpa using hx
    subst this
    exact absurd hws h
  | case4 c d cs h hd ih =>
    intro x hx
    rw [collapseWhitespace_cons2_ww h hd] at hx
    exact ih x hx
  | case5 c d cs h hd ih =>
    intro x hx hws
    rw [collapseWhitespace_cons2_wn h hd] at hx
    rcases List.mem_cons.mp hx with h1 | h1
    · exact h1
    · exact ih x h1 hws
  | case6 c d cs h ih =>
    intro x hx hws
    rw [collapseWhitespace_cons2_n h] at hx
    rcases List.mem_cons.mp hx with h1 | h1
    · subst h1; exact absurd hws h
    · exact ih x h1 hws

theorem collapseWhitespace_cons_not_ws (c : Char) (cs : List Char)
    (h : ¬isWS c = true) :
    ∃ t, collapseWhitespace (c :: cs) = c :: t := by
  cases cs with
  | nil => exact ⟨[], by rw [collapseWhitespace, if_neg h]⟩
  | cons d cs' => exact ⟨_, collapseWhitespace_cons2_n h⟩

theorem collapseWhitespace_chain :
    ∀ (s : List Char),
    List.Chain' (fun a b => isWS a = false ∨ isWS b = false)
      (collapseWhitespace s) := by
  intro s
  induction s using collapseWhitespace.induct with
  | case1 => exact List.chain'_nil
  | case2 c h =>
    rw [collapseWhitespace, if_pos h]
    exact List.chain'_singleton _
  | case3 c h =>
    rw [collapseWhitespace, if_neg h]
    exact List.chain'_singleton _
  | case4 c d cs h hd ih =>
    rw [collapseWhitespace_cons2_ww h hd]
    exact ih
  | case5 c d cs h hd ih =>
    rw [collapseWhitespace_cons2_wn h hd]
    rw [List.chain'_cons']
    refine ⟨?_, ih⟩
    intro y hy
    obtain ⟨t, ht⟩ := collapseWhitespace_cons_not_ws d cs hd
    rw [ht, List.head?_cons, Option.mem_def, Option.some.injEq] at hy
    right
    rw [← hy]
    exact Bool.eq_false_iff.mpr hd
  | case6 c d cs h ih =>
    rw [collapseWhitespace_cons2_n h]
    rw [List.chain'_cons']
    refine ⟨?_, ih⟩
    intro y _
    left
    exact Bool.eq_false_iff.mpr h

theorem collapseWhitespace_eq_self :
    ∀ (s : List Char), (∀ c ∈ s, isWS c = true → c = ' ') →
    List.Chain' (fun a b => isWS a = false ∨ isWS b = false) s →
    collapseWhitespace s = s := by
  intro s
  induction s using collapseWhitespace.induct with
  | case1 => intro _ _; rfl
  | case2 c h =>
    intro hws _
    rw [collapseWhitespace, if_pos h]
    rw [hws c (List.mem_cons_self _ _) h]
  | case3 c h =>
    intro _ _
    rw [collapseWhitespace, if_neg h]
  | case4 c d cs h hd ih =>
    intro _ hchain
    exfalso
    rcases (List.chain'_cons.mp hchain).1 with h1 | h1
    · rw [h] at h1; exact Bool.noConfusion h1
    · rw [hd] at h1; exact Bool.noConfusion h1
  | case5 c d cs h hd ih =>
    intro hws hchain
    rw [collapseWhitespace_cons2_wn h hd]
    rw [ih (fun x hx hxws => hws x (List.mem_cons_of_mem _ hx) hxws)
      (List.chain'_cons.mp hchain).2]
    rw [hws c (List.mem_cons_self _ _) h]
  | case6 c d cs h ih =>
    intro hws hchain
    rw [collapseWhitespace_cons2_n h]
    rw [ih (fun x hx hxws => hws x (List.mem_cons_of_mem _ hx) hxws)
      (List.chain'_cons.mp hchain).2]

end WordTiming

namespace WordTiming

theorem trimChars_eq_rdrop (s : List Char) :
    trimChars s = (s.dropWhile isWS).rdropWhile isWS := rfl

theorem head?_dropWhile_not (p : Char → Bool) :
    ∀ (l : List Char) (c : Char),
    (l.dropWhile p).head? = some c → p c = false := by
  intro l
  induction l with
  | nil => intro c h; exact Option.noConfusion h
  | cons a l ih =>
    intro c h
    rw [List.dropWhile_cons] at h
    by_cases hp : p a
    · rw [if_pos hp] at h
      exact ih c h
    · rw [if_neg hp] at h
      rw [List.head?_cons, Option.some.injEq] at h
      rw [← h]
      exact Bool.eq_false_iff.mpr hp

theorem getLast?_of_suffix {l₁ l₂ : List Char} (h : l₁ <:+ l₂)
    (hne : l₁ ≠ []) : l₁.getLast? = l₂.getLast? := by
  obtain ⟨u, rfl⟩ := h
  rw [List.getLast?_append_of_ne_nil _ hne]

theorem mem_trimChars {s : List Char} {c : Char} (h : c ∈ trimChars s) :
    c ∈ s := by
  rw [trimChars_eq_rdrop, List.rdropWhile] at h
  rw [List.mem_reverse] at h
  have h1 := ((List.dropWhile_suffix isWS).sublist).mem h
  rw [List.mem_reverse] at h1
  exact ((List.dropWhile_suffix isWS).sublist).mem h1

theorem chain'_dropWhile {R : Char → Char → Prop} (p : Char → Bool) :
    ∀ (l : List Char), List.Chain' R l → List.Chain' R (l.dropWhile p) := by
  intro l
  induction l with
  | nil => intro h; exact h
  | cons a l ih =>
    intro h
    rw [List.dropWhile_cons]
    by_cases hp : p a
    · rw [if_pos hp]
      exact ih h.tail
    · rw [if_neg hp]
      exact h

theorem chain'_rdropWhile {R : Char → Char → Prop}
    (p : Char → Bool) (l : List Char)
    (h : List.Chain' R l) : List.Chain' R (l.rdropWhile p) := by
  rw [List.rdropWhile, List.chain'_reverse]
  apply chain'_dropWhile
  rw [List.chain'_reverse]
  exact h

theorem chain'_trimChars {R : Char → Char → Prop} (s : List Char)
    (h : List.Chain' R s) : List.Chain' R (trimChars s) := by
  rw [trimChars_eq_rdrop]
  exact chain'_rdropWhile isWS _ (chain'_dropWhile isWS s h)

theorem trimChars_head?_not_ws (s : List Char) (c : Char)
    (h : (trimChars s).head? = some c) : isWS c = false := by
  rw [trimChars_eq_rdrop] at h
  set y := s.dropWhile isWS with hy
  have h1 : (y.rdropWhile isWS).reverse.getLast? = some c := by
    rw [List.getLast?_reverse]
    exact h
  rw [List.rdropWhile, List.reverse_reverse] at h1
  have hne : y.reverse.dropWhile isWS ≠ [] := by
    intro hc
    rw [hc] at h1
    exact Option.noConfusion h1
  rw [getLast?_of_suffix (List.dropWhile_suffix isWS) hne] at h1
  rw [List.getLast?_reverse] at h1
  exact head?_dropWhile_not isWS s c h1

theorem trimChars_getLast?_not_ws (s : List Char) (c : Char)
    (h : (trimChars s).getLast? = some c) : isWS c = false := by
  rw [trimChars_eq_rdrop] at h
  have hne : (s.dropWhile isWS).rdropWhile isWS ≠ [] := by
    intro hc
    rw [hc] at h
    exact Option.noConfusion h
  have h1 := List.rdropWhile_last_not isWS (s.dropWhile isWS) hne
  rw [List.getLast?_eq_getLast _ hne, Option.some.injEq] at h
  rw [h] at h1
  exact Bool.eq_false_iff.mpr h1

theorem trimChars_eq_self {s : List Char}
    (hhead : ∀ c, s.head? = some c → isWS c = false)
    (hlast : ∀ c, s.getLast? = some c → isWS c = false) :
    trimChars s = s := by
  have h1 : s.dropWhile isWS = s := by
    rw [List.dropWhile_eq_self_iff]
    intro hl hp
    have hh : s.head? = some (s.get ⟨0, hl⟩) := by
      rw [List.head?_eq_getElem?, List.get_eq_getElem]
      exact List.getElem?_eq_getElem hl
    rw [hhead _ hh] at hp
    exact Bool.noConfusion hp
  rw [trimChars_eq_rdrop, h1]
  rw [List.rdropWhile_eq_self_iff]
  intro hne hp
  have := hlast (s.getLast hne) (List.getLast?_eq_getLast s hne)
  rw [this] at hp
  exact Bool.noConfusion hp

end WordTiming

namespace WordTiming

/-! ### `cleanWord` output invariants -/

theorem stripPunctuation_not_punct (s : List Char) :
    ∀ c ∈ stripPunctuation s, c ∉ punctuation := by
  intro c hc hmem
  have h1 := (List.mem_filter.mp hc).2
  have h2 := (contains_iff_mem punctuation c).mpr hmem
  rw [h2] at h1
  exact Bool.noConfusion h1

theorem cleanWord_mem_facts (s : List Char) :
    ∀ c ∈ cleanWord s,
      c ∉ punctuation ∧ ¬(65 ≤ c.toNat ∧ c.toNat ≤ 90) ∧
      (isWS c = true → c = ' ') := by
  intro c hc
  rw [cleanWord, List.mem_map] at hc
  obtain ⟨d, hd, hcd⟩ := hc
  have hd1 : d ∈ collapseWhitespace (stripPunctuation s) := mem_trimChars hd
  subst hcd
  refine ⟨?_, jsToLower_not_upper d, ?_⟩
  · apply jsToLower_not_punct
    rcases collapseWhitespace_mem _ d hd1 with h1 | h1
    · exact stripPunctuation_not_punct s d h1
    · subst h1
      decide
  · intro hws
    rw [jsToLower_isWS] at hws
    have hd2 := collapseWhitespace_ws _ d hd1 hws
    rw [hd2, jsToLower_space]

theorem cleanWord_chain (s : List Char) :
    List.Chain' (fun a b => isWS a = false ∨ isWS b = false)
      (cleanWord s) := by
  rw [cleanWord, List.chain'_map]
  have h1 := chain'_trimChars _
    (collapseWhitespace_chain (stripPunctuation s))
  exact List.Chain'.imp
    (fun a b hab => by rw [jsToLower_isWS, jsToLower_isWS]; exact hab) h1

theorem cleanWord_head?_not_ws (s : List Char) :
    ∀ c, (cleanWord s).head? = some c → isWS c = false := by
  intro c h
  rw [cleanWord, List.head?_map] at h
  cases hd : (trimChars (collapseWhitespace (stripPunctuation s))).head? with
  | none => rw [hd] at h; exact Option.noConfusion h
  | some d =>
    rw [hd, Option.map_some', Option.some.injEq] at h
    rw [← h, jsToLower_isWS]
    exact trimChars_head?_not_ws _ d hd

theorem cleanWord_getLast?_not_ws (s : List Char) :
    ∀ c, (cleanWord s).getLast? = some c → isWS c = false := by
  intro c h
  rw [cleanWord, List.getLast?_map] at h
  cases hd : (trimChars (collapseWhitespace (stripPunctuation s))).getLast? with
  | none => rw [hd] at h; exact Option.noConfusion h
  | some d =>
    rw [hd, Option.map_some', Option.some.injEq] at h
    rw [← h, jsToLower_isWS]
    exact trimChars_getLast?_not_ws _ d hd

/-- C8: `cleanWord` removes every occurrence of the fixed punctuation set
(quotes, brackets, parentheses, sentence punctuation, the ♪ glyph),
collapses internal whitespace runs to a single space and trims the ends
(all remaining whitespace is a single internal `' '`), lowercases the
result (no ASCII uppercase remains), and maps the three spec examples as
stated. -/
theorem claim_C8_cleanWord (w : List Char) :
    (∀ c ∈ cleanWord w, c ∉ punctuation) ∧
    (∀ c ∈ cleanWord w, ¬(65 ≤ c.toNat ∧ c.toNat ≤ 90)) ∧
    (∀ c ∈ cleanWord w, isWS c = true → c = ' ') ∧
    List.Chain' (fun a b => isWS a = false ∨ isWS b = false) (cleanWord w) ∧
    (∀ c, (cleanWord w).head? = some c → isWS c = false) ∧
    (∀ c, (cleanWord w).getLast? = some c → isWS c = false) ∧
    cleanWord ("Hello,".toList) = ("hello".toList) ∧
    cleanWord ("♪mmm♪".toList) = ("mmm".toList) ∧
    cleanWord ("  Multi   space  ".toList) = ("multi space".toList) :=
  ⟨fun c hc => (cleanWord_mem_facts w c hc).1,
    fun c hc => (cleanWord_mem_facts w c hc).2.1,
    fun c hc => (cleanWord_mem_facts w c hc).2.2,
    cleanWord_chain w,
    cleanWord_head?_not_ws w,
    cleanWord_getLast?_not_ws w,
    by decide, by decide, by decide⟩

/-- C10: `cleanWord` is idempotent: its output contains no stripped
punctuation, no ASCII uppercase, and no whitespace other than single
internal spaces, so a second application changes nothing. -/
theorem claim_C10_cleanWord_idempotent (w : List Char) :
    cleanWord (cleanWord w) = cleanWord w := by
  have hfacts := cleanWord_mem_facts w
  have hstrip : stripPunctuation (cleanWord w) = cleanWord w := by
    rw [stripPunctuation, List.filter_eq_self]
    intro c hc
    cases hcont : punctuation.contains c with
    | true => exact absurd ((contains_iff_mem _ _).mp hcont) (hfacts c hc).1
    | false => rfl
  have hcollapse : collapseWhitespace (cleanWord w) = cleanWord w :=
    collapseWhitespace_eq_self _ (fun c hc => (hfacts c hc).2.2)
      (cleanWord_chain w)
  have htrim : trimChars (cleanWord w) = cleanWord w :=
    trimChars_eq_self (cleanWord_head?_not_ws w) (cleanWord_getLast?_not_ws w)
  have hmap : (cleanWord w).map jsToLower = cleanWord w := by
    rw [List.map_congr_left
      (fun c hc => jsToLower_eq_self (hfacts c hc).2.1)]
    exact List.map_id _
  conv_lhs => rw [cleanWord]
  rw [hstrip, hcollapse, htrim, hmap]

end WordTiming
